import Mathlib

/-!
Shallow embedding of `src/hash_function.py` (class `SimpleHash256` and its
module-level helpers).  Bytes are modelled as `List Nat` (each entry intended
`< 256`), Python arbitrary-precision non-negative integers as `Nat`, and the
32-bit masking `& 0xFFFFFFFF` is kept explicit.  Python `~e & g` on
non-negative integers clears the bits of `e` from `g`; on naturals this is
`g ^^^ (g &&& e)` (bit `j` of the result is `g_j ∧ ¬ e_j`), which is how it is
rendered below.
-/

namespace SimpleHash256

/-- The `SimpleHash256.INITIAL_HASH` table from the source. -/
def INITIAL_HASH : List Nat :=
  [0x6a09e667, 0xbb67ae85, 0x3c6ef372, 0xa54ff53a,
   0x510e527f, 0x9b05688c, 0x1f83d9ab, 0x5be0cd19]

/-- The `SimpleHash256.K` table from the source: 16 round constants, used
cyclically (one flat literal there; written in two halves here). -/
def K : List Nat :=
  [0x428a2f98, 0x71374491, 0xb5c0fbcf, 0xe9b5dba5,
   0x3956c25b, 0x59f111f1, 0x923f82a4, 0xab1c5ed5] ++
  [0xd807aa98, 0x12835b01, 0x243185be, 0x550c7dc3,
   0x72be5d74, 0x80deb1fe, 0x9bdc06a7, 0xc19bf174]

/-- Model of `SimpleHash256._rotate_right`: mask to 32 bits, then
`((value >> shift) | (value << (32 - shift))) & 0xFFFFFFFF`. -/
def rotateRight (value shift : Nat) : Nat :=
  let v := value &&& 0xFFFFFFFF
  ((v >>> shift) ||| (v <<< (32 - shift))) &&& 0xFFFFFFFF

/-- Model of `SimpleHash256._rotate_left`: mask to 32 bits, then
`((value << shift) | (value >> (32 - shift))) & 0xFFFFFFFF`. -/
def rotateLeft (value shift : Nat) : Nat :=
  let v := value &&& 0xFFFFFFFF
  ((v <<< shift) ||| (v >>> (32 - shift))) &&& 0xFFFFFFFF

/-- Python big-endian `int.from_bytes` on a byte list. -/
def fromBytesBE (bs : List Nat) : Nat :=
  bs.foldl (fun acc b => acc * 256 + b) 0

/-- Python big-endian `v.to_bytes(n)` (for `v < 256^n`); the general
`Nat` version truncates with `%` exactly where Python would raise, which no
reachable call does. -/
def toBytesBE (n v : Nat) : List Nat :=
  (List.range n).map (fun i => v / 256 ^ (n - 1 - i) % 256)

/-- Model of `SimpleHash256._pad_message`.  Python `%` on a possibly negative
left operand is `Int.emod` (result in `[0, 64)`), hence the `Int` detour for
`padding_len = (56 - (msg_len + 1) % 64) % 64`. -/
def padMessage (message : List Nat) : List Nat :=
  let msgLen := message.length
  let paddingLen := (((56 : Int) - ((msgLen + 1) % 64 : Nat)) % 64).toNat
  (message ++ [0x80]) ++ List.replicate paddingLen 0 ++ toBytesBE 8 (msgLen * 8)

/-- Model of `SimpleHash256._mixing_function`: XOR, rotate-left by 7, addition,
XOR with rotate-right by 11; defined in the source but never called. -/
def mixingFunction (a b c : Nat) : Nat :=
  let x := (a ^^^ b) &&& 0xFFFFFFFF
  let x := rotateLeft x 7 &&& 0xFFFFFFFF
  let x := (x + c) &&& 0xFFFFFFFF
  let x := (x ^^^ rotateRight b 11) &&& 0xFFFFFFFF
  x

/-- The 16 initial schedule words of `_compress_block`:
big-endian `int.from_bytes(block[i:i+4])` for `i = 0, 4, …, 60`. -/
def blockWords (block : List Nat) : List Nat :=
  (List.range 16).map (fun i => fromBytesBE ((block.drop (4 * i)).take 4))

/-- The message-schedule array of `_compress_block` as a function of the
index: entries `0..15` come from the block, and the append loop makes entry
`i ≥ 16` exactly
`(w[i-16] + s0 + w[i-7] + s1) & 0xFFFFFFFF` with
`s0 = rotr(w[i-15],7) ^ rotr(w[i-15],18) ^ (w[i-15] >> 3)` and
`s1 = rotr(w[i-2],17) ^ rotr(w[i-2],19) ^ (w[i-2] >> 10)`. -/
def scheduleWord (ws : List Nat) : Nat → Nat
  | i =>
    if i < 16 then ws.getD i 0
    else
      let w15 := scheduleWord ws (i - 15)
      let w2 := scheduleWord ws (i - 2)
      let s0 := rotateRight w15 7 ^^^ rotateRight w15 18 ^^^ (w15 >>> 3)
      let s1 := rotateRight w2 17 ^^^ rotateRight w2 19 ^^^ (w2 >>> 10)
      (scheduleWord ws (i - 16) + s0 + scheduleWord ws (i - 7) + s1) &&& 0xFFFFFFFF
  termination_by i => i
  decreasing_by all_goals omega

/-- The eight working variables `a..h` of the compression loop. -/
structure Regs where
  a : Nat
  b : Nat
  c : Nat
  d : Nat
  e : Nat
  f : Nat
  g : Nat
  h : Nat
  deriving Repr, DecidableEq

/-- One round `i` of the 64-round compression loop of `_compress_block`.
Python `~e & g` is rendered as `g ^^^ (g &&& e)` (see the header note). -/
def compressRound (ws : List Nat) (r : Regs) (i : Nat) : Regs :=
  let S1 := rotateRight r.e 6 ^^^ rotateRight r.e 11 ^^^ rotateRight r.e 25
  let ch := (r.e &&& r.f) ^^^ (r.g ^^^ (r.g &&& r.e))
  let temp1 := (r.h + S1 + ch + K.getD (i % 16) 0 + scheduleWord ws i) &&& 0xFFFFFFFF
  let S0 := rotateRight r.a 2 ^^^ rotateRight r.a 13 ^^^ rotateRight r.a 22
  let maj := (r.a &&& r.b) ^^^ (r.a &&& r.c) ^^^ (r.b &&& r.c)
  let temp2 := (S0 + maj) &&& 0xFFFFFFFF
  { a := (temp1 + temp2) &&& 0xFFFFFFFF
    b := r.a
    c := r.b
    d := r.c
    e := (r.d + temp1) &&& 0xFFFFFFFF
    f := r.e
    g := r.f
    h := r.g }

/-- Rounds `0, 1, …, n-1` of the compression loop, in order. -/
def compressLoop (ws : List Nat) (r : Regs) : Nat → Regs
  | 0 => r
  | n + 1 => compressRound ws (compressLoop ws r n) n

/-- Model of `SimpleHash256._compress_block` as a pure function of the 8-word state
and one 64-byte block: schedule expansion, 64 rounds, then the Davies-Meyer
feed-forward `state[j] = (state[j] + reg) & 0xFFFFFFFF`. -/
def compressBlock (st : List Nat) (block : List Nat) : List Nat :=
  let ws := blockWords block
  let r0 : Regs :=
    { a := st.getD 0 0, b := st.getD 1 0, c := st.getD 2 0, d := st.getD 3 0
      e := st.getD 4 0, f := st.getD 5 0, g := st.getD 6 0, h := st.getD 7 0 }
  let r := compressLoop ws r0 64
  [(st.getD 0 0 + r.a) &&& 0xFFFFFFFF, (st.getD 1 0 + r.b) &&& 0xFFFFFFFF,
   (st.getD 2 0 + r.c) &&& 0xFFFFFFFF, (st.getD 3 0 + r.d) &&& 0xFFFFFFFF,
   (st.getD 4 0 + r.e) &&& 0xFFFFFFFF, (st.getD 5 0 + r.f) &&& 0xFFFFFFFF,
   (st.getD 6 0 + r.g) &&& 0xFFFFFFFF, (st.getD 7 0 + r.h) &&& 0xFFFFFFFF]

/-- The mutable state of a `SimpleHash256` instance: `self.state`,
`self.buffer`, `self.counter`. -/
structure Engine where
  state : List Nat
  buffer : List Nat
  counter : Nat
  deriving Repr, DecidableEq

/-- State after `reset` and `__init__`: initial words, empty buffer, zero counter. -/
def initEngine : Engine :=
  { state := INITIAL_HASH, buffer := [], counter := 0 }

/-- Model of `SimpleHash256.reset` as a transition on the engine. -/
def resetEngine (_e : Engine) : Engine := initEngine

/-- The `while len(self.buffer) >= 64` loop of `update`: repeatedly strip the
leading 64 bytes and compress them. -/
def processBuffer (st : List Nat) (buf : List Nat) : List Nat × List Nat :=
  if 64 ≤ buf.length then
    processBuffer (compressBlock st (buf.take 64)) (buf.drop 64)
  else (st, buf)
  termination_by buf.length
  decreasing_by simp [List.length_drop]; omega

/-- Model of `SimpleHash256.update` on byte input: append to the buffer, bump the
counter, compress full blocks. -/
def update (e : Engine) (data : List Nat) : Engine :=
  let buf := e.buffer ++ data
  let counter := e.counter + data.length
  let p := processBuffer e.state buf
  { state := p.1, buffer := p.2, counter := counter }

/-- The `for i in range(0, len(padded), 64)` loop of `digest`: compress the
byte list chunkwise from the front. -/
def compressChunks (st : List Nat) (bs : List Nat) : List Nat :=
  if bs.length = 0 then st
  else compressChunks (compressBlock st (bs.take 64)) (bs.drop 64)
  termination_by bs.length
  decreasing_by simp [List.length_drop]; omega

/-- Model of `SimpleHash256.digest`: pad the pending buffer, compress the padded
blocks starting from the live state, serialize the resulting 8 words
big-endian, then restore the snapshot taken before compressing (the source
`temp_state` snapshot); the buffer and counter are untouched.  Returns the digest and
the post-call engine. -/
def digest (e : Engine) : List Nat × Engine :=
  let finalBuffer := e.buffer
  let padded := padMessage finalBuffer
  let tempState := e.state
  let st := compressChunks e.state padded
  let result := st.foldl (fun acc w => acc ++ toBytesBE 4 w) []
  (result, { e with state := tempState })

/-! Definitions written from the words of spec §4.1, for the refinement
claim about the compression step.  They differ from the source rendering
where the wording differs: right-rotation is `(x >> r) | (x << (32-r))`
masked, with no pre-mask of the argument, and `~e` is the 32-bit
complement `0xFFFFFFFF ^^^ e`; sums are reduced `mod 2^32`. -/

/-- Right-rotation as spec §4.1 words it. -/
def rotrSpec (x r : Nat) : Nat :=
  ((x >>> r) ||| (x <<< (32 - r))) &&& 0xFFFFFFFF

/-- Bitwise choose, `(e & f) ^ (~e & g)` with `~e` the 32-bit complement. -/
def chSpec (e f g : Nat) : Nat :=
  (e &&& f) ^^^ ((0xFFFFFFFF ^^^ e) &&& g)

/-- Bitwise majority, `(a & b) ^ (a & c) ^ (b & c)`. -/
def majSpec (a b c : Nat) : Nat :=
  (a &&& b) ^^^ (a &&& c) ^^^ (b &&& c)

/-- The message schedule as spec §4.1 describes it: entries `0..15` from the
block, entry `i ≥ 16` is `(w[i-16] + s0 + w[i-7] + s1) mod 2^32` with the
7/18/3 and 17/19/10 mixing terms. -/
def scheduleWordSpec (ws : List Nat) : Nat → Nat
  | i =>
    if i < 16 then ws.getD i 0
    else
      let w15 := scheduleWordSpec ws (i - 15)
      let w2 := scheduleWordSpec ws (i - 2)
      let s0 := rotrSpec w15 7 ^^^ rotrSpec w15 18 ^^^ (w15 >>> 3)
      let s1 := rotrSpec w2 17 ^^^ rotrSpec w2 19 ^^^ (w2 >>> 10)
      (scheduleWordSpec ws (i - 16) + s0 + scheduleWordSpec ws (i - 7) + s1) % 2 ^ 32
  termination_by i => i
  decreasing_by all_goals omega

/-- One round of the round transform of spec §4.1. -/
def compressRoundSpec (ws : List Nat) (r : Regs) (i : Nat) : Regs :=
  let S1 := rotrSpec r.e 6 ^^^ rotrSpec r.e 11 ^^^ rotrSpec r.e 25
  let temp1 := (r.h + S1 + chSpec r.e r.f r.g + K.getD (i % 16) 0 + scheduleWordSpec ws i) % 2 ^ 32
  let S0 := rotrSpec r.a 2 ^^^ rotrSpec r.a 13 ^^^ rotrSpec r.a 22
  let temp2 := (S0 + majSpec r.a r.b r.c) % 2 ^ 32
  { a := (temp1 + temp2) % 2 ^ 32
    b := r.a
    c := r.b
    d := r.c
    e := (r.d + temp1) % 2 ^ 32
    f := r.e
    g := r.f
    h := r.g }

/-- Rounds `0, …, n-1` of the transform of spec §4.1. -/
def compressLoopSpec (ws : List Nat) (r : Regs) : Nat → Regs
  | 0 => r
  | n + 1 => compressRoundSpec ws (compressLoopSpec ws r n) n

/-- The compression function of spec §4.1: big-endian word split, schedule expansion,
64 rounds, Davies-Meyer feed-forward mod `2^32`. -/
def compressBlockSpec (st : List Nat) (block : List Nat) : List Nat :=
  let ws := blockWords block
  let r0 : Regs :=
    { a := st.getD 0 0, b := st.getD 1 0, c := st.getD 2 0, d := st.getD 3 0
      e := st.getD 4 0, f := st.getD 5 0, g := st.getD 6 0, h := st.getD 7 0 }
  let r := compressLoopSpec ws r0 64
  [(st.getD 0 0 + r.a) % 2 ^ 32, (st.getD 1 0 + r.b) % 2 ^ 32,
   (st.getD 2 0 + r.c) % 2 ^ 32, (st.getD 3 0 + r.d) % 2 ^ 32,
   (st.getD 4 0 + r.e) % 2 ^ 32, (st.getD 5 0 + r.f) % 2 ^ 32,
   (st.getD 6 0 + r.g) % 2 ^ 32, (st.getD 7 0 + r.h) % 2 ^ 32]

/-! The engine with the `_mixing_function` slot explicit.  In the source the
method is available on `self` wherever `_compress_block` runs; the versions
below take that slot as a parameter and, exactly as in the source, never
consult it. -/

/-- Copy of `_compress_block` with the mixing-function slot of the instance in
scope; the body is the body from the source and does not use it. -/
def compressBlockWith (mixFn : Nat → Nat → Nat → Nat) (st block : List Nat) : List Nat :=
  let ws := blockWords block
  let r0 : Regs :=
    { a := st.getD 0 0, b := st.getD 1 0, c := st.getD 2 0, d := st.getD 3 0
      e := st.getD 4 0, f := st.getD 5 0, g := st.getD 6 0, h := st.getD 7 0 }
  let r := compressLoop ws r0 64
  [(st.getD 0 0 + r.a) &&& 0xFFFFFFFF, (st.getD 1 0 + r.b) &&& 0xFFFFFFFF,
   (st.getD 2 0 + r.c) &&& 0xFFFFFFFF, (st.getD 3 0 + r.d) &&& 0xFFFFFFFF,
   (st.getD 4 0 + r.e) &&& 0xFFFFFFFF, (st.getD 5 0 + r.f) &&& 0xFFFFFFFF,
   (st.getD 6 0 + r.g) &&& 0xFFFFFFFF, (st.getD 7 0 + r.h) &&& 0xFFFFFFFF]

/-- The `while` loop of `update`, with the compression step a parameter. -/
def processBufferWith (cf : List Nat → List Nat → List Nat) (st buf : List Nat) :
    List Nat × List Nat :=
  if 64 ≤ buf.length then
    processBufferWith cf (cf st (buf.take 64)) (buf.drop 64)
  else (st, buf)
  termination_by buf.length
  decreasing_by simp [List.length_drop]; omega

/-- Model of `update` with the compression step a parameter. -/
def updateWith (cf : List Nat → List Nat → List Nat) (e : Engine) (data : List Nat) : Engine :=
  let buf := e.buffer ++ data
  let counter := e.counter + data.length
  let p := processBufferWith cf e.state buf
  { state := p.1, buffer := p.2, counter := counter }

/-- The block loop of `digest`, with the compression step a parameter. -/
def compressChunksWith (cf : List Nat → List Nat → List Nat) (st bs : List Nat) : List Nat :=
  if bs.length = 0 then st
  else compressChunksWith cf (cf st (bs.take 64)) (bs.drop 64)
  termination_by bs.length
  decreasing_by simp [List.length_drop]; omega

/-- Model of `digest` with the compression step a parameter. -/
def digestWith (cf : List Nat → List Nat → List Nat) (e : Engine) : List Nat × Engine :=
  let finalBuffer := e.buffer
  let padded := padMessage finalBuffer
  let tempState := e.state
  let st := compressChunksWith cf e.state padded
  let result := st.foldl (fun acc w => acc ++ toBytesBE 4 w) []
  (result, { e with state := tempState })

/-! Input conversion for `update`: a Python argument is raw bytes or text
(a list of code points, each `< 0x110000`; lone surrogates are legal in a
`str`).  Python `str.encode` with the utf-8 codec raises exactly on surrogates. -/

/-- A surrogate code point, not UTF-8-encodable. -/
def isSurrogate (c : Nat) : Bool := 0xD800 ≤ c && c ≤ 0xDFFF

/-- UTF-8 encoding of one code point, as Python `str.encode` emits it;
`none` exactly when the code point cannot be encoded. -/
def encodeChar (c : Nat) : Option (List Nat) :=
  if c < 0x80 then some [c]
  else if c < 0x800 then some [0xC0 ||| (c >>> 6), 0x80 ||| (c &&& 0x3F)]
  else if isSurrogate c then none
  else if c < 0x10000 then
    some [0xE0 ||| (c >>> 12), 0x80 ||| ((c >>> 6) &&& 0x3F), 0x80 ||| (c &&& 0x3F)]
  else if c < 0x110000 then
    some [0xF0 ||| (c >>> 18), 0x80 ||| ((c >>> 12) &&& 0x3F),
          0x80 ||| ((c >>> 6) &&& 0x3F), 0x80 ||| (c &&& 0x3F)]
  else none

/-- UTF-8 encoding over a whole string; `none` when some code point
is unencodable. -/
def encodeUTF8 : List Nat → Option (List Nat)
  | [] => some []
  | c :: cs => do
      let b ← encodeChar c
      let rest ← encodeUTF8 cs
      pure (b ++ rest)

/-- An argument to `update`: raw bytes, or text to be encoded first. -/
inductive Data where
  | bytes (bs : List Nat)
  | text (cs : List Nat)

/-- The error taxonomy entry of the spec for `update`: the input cannot be
converted to bytes under the fixed UTF-8 encoding (Python raises a
`UnicodeEncodeError` from the utf-8 encoding of the argument). -/
inductive HashError where
  | encodingError
  deriving DecidableEq, Repr

/-- Model of `update` on either input kind: text is converted via the fixed UTF-8
encoding before any state is touched; an unencodable input raises, so no
new engine is produced. -/
def updateData (e : Engine) (d : Data) : Except HashError Engine :=
  match d with
  | .bytes bs => .ok (update e bs)
  | .text cs =>
    match encodeUTF8 cs with
    | some bs => .ok (update e bs)
    | none => .error .encodingError

/-- The engine the caller holds after `updateData`: the new one on success,
the untouched input engine when the exception propagated. -/
def updateDataEngine (e : Engine) (d : Data) : Engine :=
  match updateData e d with
  | .ok e' => e'
  | .error _ => e

/-- The documented engine invariant: exactly 8 state words, each at most
`0xFFFFFFFF`, and a pending buffer of fewer than 64 bytes. -/
def Inv (e : Engine) : Prop :=
  e.state.length = 8 ∧ (∀ x ∈ e.state, x ≤ 0xFFFFFFFF) ∧ e.buffer.length < 64

/-- All eight working variables below `2^32`. -/
def RegsLt (r : Regs) : Prop :=
  r.a < 2 ^ 32 ∧ r.b < 2 ^ 32 ∧ r.c < 2 ^ 32 ∧ r.d < 2 ^ 32 ∧
  r.e < 2 ^ 32 ∧ r.f < 2 ^ 32 ∧ r.g < 2 ^ 32 ∧ r.h < 2 ^ 32

/-! Helper lemmas. -/

theorem processBuffer_block (st buf : List Nat) (h : 64 ≤ buf.length) :
    processBuffer st buf = processBuffer (compressBlock st (buf.take 64)) (buf.drop 64) := by
  rw [processBuffer]
  simp [h]

theorem processBuffer_small (st buf : List Nat) (h : ¬ 64 ≤ buf.length) :
    processBuffer st buf = (st, buf) := by
  rw [processBuffer]
  simp [h]

theorem processBuffer_append_aux (n : Nat) :
    ∀ (st buf extra : List Nat), buf.length ≤ n →
      processBuffer (processBuffer st buf).1 ((processBuffer st buf).2 ++ extra) =
        processBuffer st (buf ++ extra) := by
  induction n with
  | zero =>
    intro st buf extra h
    rw [processBuffer_small st buf (by omega)]
  | succ n ih =>
    intro st buf extra h
    by_cases h64 : 64 ≤ buf.length
    · rw [processBuffer_block st buf h64,
        processBuffer_block st (buf ++ extra) (by simp; omega),
        List.take_append_of_le_length h64, List.drop_append_of_le_length h64]
      exact ih _ _ extra (by simp; omega)
    · rw [processBuffer_small st buf h64]

theorem processBuffer_append (st buf extra : List Nat) :
    processBuffer (processBuffer st buf).1 ((processBuffer st buf).2 ++ extra) =
      processBuffer st (buf ++ extra) :=
  processBuffer_append_aux buf.length st buf extra le_rfl

theorem update_update (e : Engine) (a b : List Nat) :
    update (update e a) b = update e (a ++ b) := by
  simp only [update]
  rw [processBuffer_append e.state (e.buffer ++ a) b, List.append_assoc]
  simp [Engine.mk.injEq]
  omega

theorem digest_snd (e : Engine) : (digest e).2 = e := rfl

theorem update_nil (e : Engine) (h : e.buffer.length < 64) : update e [] = e := by
  simp only [update, List.append_nil, List.length_nil, Nat.add_zero]
  rw [processBuffer_small e.state e.buffer (by omega)]

theorem foldl_update (cs : List (List Nat)) :
    ∀ (c : List Nat) (e : Engine),
      List.foldl update (update e c) cs = update e (c ++ cs.flatten) := by
  induction cs with
  | nil => intro c e; simp
  | cons d ds ih =>
    intro c e
    rw [List.foldl_cons, update_update e c d, ih (c ++ d) e,
      List.flatten_cons, List.append_assoc]

theorem processBuffer_inv (n : Nat) :
    ∀ (st buf : List Nat), buf.length ≤ n → st.length = 8 →
      (∀ x ∈ st, x ≤ 0xFFFFFFFF) →
      (processBuffer st buf).1.length = 8 ∧
        (∀ x ∈ (processBuffer st buf).1, x ≤ 0xFFFFFFFF) ∧
        (processBuffer st buf).2.length < 64 := by
  induction n with
  | zero =>
    intro st buf h hlen hle
    rw [processBuffer_small st buf (by omega)]
    exact ⟨hlen, hle, by show buf.length < 64; omega⟩
  | succ n ih =>
    intro st buf h hlen hle
    by_cases h64 : 64 ≤ buf.length
    · rw [processBuffer_block st buf h64]
      refine ih _ _ (by simp; omega) (by simp [compressBlock]) ?_
      simp only [compressBlock, List.mem_cons, List.not_mem_nil, or_false]
      rintro x (rfl | rfl | rfl | rfl | rfl | rfl | rfl | rfl) <;>
        exact Nat.and_le_right
    · rw [processBuffer_small st buf h64]
      exact ⟨hlen, hle, by show buf.length < 64; omega⟩

theorem compressChunks_block (st bs : List Nat) (h : ¬ bs.length = 0) :
    compressChunks st bs = compressChunks (compressBlock st (bs.take 64)) (bs.drop 64) := by
  rw [compressChunks]
  simp [h]

theorem compressChunks_nil (st : List Nat) : compressChunks st [] = st := by
  rw [compressChunks]
  simp

theorem compressChunks_length (n : Nat) :
    ∀ (st bs : List Nat), bs.length ≤ n → st.length = 8 →
      (compressChunks st bs).length = 8 := by
  induction n with
  | zero =>
    intro st bs h hlen
    have : bs = [] := List.length_eq_zero.mp (by omega)
    rw [this, compressChunks_nil]
    exact hlen
  | succ n ih =>
    intro st bs h hlen
    by_cases h0 : bs.length = 0
    · rw [List.length_eq_zero.mp h0, compressChunks_nil]; exact hlen
    · rw [compressChunks_block st bs h0]
      exact ih _ _ (by simp; omega) (by simp [compressBlock])

theorem toBytesBE_length (n v : Nat) : (toBytesBE n v).length = n := by
  simp [toBytesBE]

theorem digest_foldl_length (st : List Nat) :
    ∀ acc : List Nat,
      (st.foldl (fun acc w => acc ++ toBytesBE 4 w) acc).length =
        acc.length + 4 * st.length := by
  induction st with
  | nil => intro acc; simp
  | cons w ws ih =>
    intro acc
    rw [List.foldl_cons, ih]
    simp [toBytesBE_length]
    omega

theorem digest_fst_length (e : Engine) (h : e.state.length = 8) :
    (digest e).1.length = 32 := by
  simp only [digest]
  rw [digest_foldl_length]
  rw [compressChunks_length (padMessage e.buffer).length e.state _ le_rfl h]
  decide

theorem update_state_length (e : Engine) (m : List Nat) (h : e.state.length = 8)
    (hle : ∀ x ∈ e.state, x ≤ 0xFFFFFFFF) : (update e m).state.length = 8 :=
  (processBuffer_inv (e.buffer ++ m).length e.state (e.buffer ++ m) le_rfl h hle).1

/-! Claim theorems. -/

/-- C1: for every list of chunks, feeding them through successive `update`
calls on a fresh engine and then reading `digest` yields the same 32-byte
digest as a single `update` of their concatenation followed by `digest` on
a fresh engine. -/
theorem incremental_eq_one_shot (chunks : List (List Nat)) :
    (digest (List.foldl update initEngine chunks)).1 =
      (digest (update initEngine chunks.flatten)).1 ∧
    (digest (update initEngine chunks.flatten)).1.length = 32 := by
  constructor
  · cases chunks with
    | nil =>
      rw [List.flatten_nil, update_nil initEngine (by simp [initEngine]), List.foldl_nil]
    | cons c cs =>
      rw [List.foldl_cons, foldl_update cs c initEngine, List.flatten_cons]
  · refine digest_fst_length _ (update_state_length _ _ ?_ ?_) <;> decide

/-- C2: after `update a; finalize`, a further `update b; finalize` returns
the same digest as `update a; update b; finalize` on a fresh engine —
finalize does not prevent updates from extending the logical message. -/
theorem finalize_then_update (a b : List Nat) :
    (digest (update (digest (update initEngine a)).2 b)).1 =
      (digest (update (update initEngine a) b)).1 := by
  rw [digest_snd]

/-- C3: `digest` leaves the engine unchanged — the 8-word state and the
pending buffer equal their pre-call values (the buffer is not cleared) —
and a repeated `digest` with no intervening `update` returns the same
value. -/
theorem digest_preserves_engine (e : Engine) :
    (digest e).2.state = e.state ∧ (digest e).2.buffer = e.buffer ∧
      (digest e).2 = e ∧ (digest (digest e).2).1 = (digest e).1 :=
  ⟨rfl, rfl, digest_snd e, by rw [digest_snd]⟩

/-- C10: an `update` with empty bytes, or with the empty string (which
UTF-8-encodes to no bytes), returns the engine exactly as it was, whenever
the pending-buffer invariant of a reachable engine holds. -/
theorem update_empty_identity (e : Engine) (h : e.buffer.length < 64) :
    update e [] = e ∧ updateData e (Data.text []) = Except.ok e := by
  refine ⟨update_nil e h, ?_⟩
  simp [updateData, encodeUTF8, update_nil e h]

/-- Witness for C10 at the fresh engine. -/
theorem update_empty_identity_witness :
    initEngine.buffer.length < 64 ∧
      (update initEngine [] = initEngine ∧
        updateData initEngine (Data.text []) = Except.ok initEngine) :=
  ⟨by decide, update_empty_identity initEngine (by decide)⟩

theorem padLen_arith (L : Nat) :
    (((56 : Int) - ((L + 1) % 64 : Nat)) % 64).toNat < 64 ∧
      (L + 1 + (((56 : Int) - ((L + 1) % 64 : Nat)) % 64).toNat) % 64 = 56 := by
  omega

/-- C5: for input shorter than 64 bytes, `_pad_message` appends `0x80`,
then zeros until the length is `56 mod 64`, then the 8-byte big-endian
encoding of 8 times the input length; the result's length is a positive
multiple of 64. -/
theorem padMessage_structure (m : List Nat) (h : m.length < 64) :
    ∃ z, padMessage m = m ++ [0x80] ++ List.replicate z 0 ++ toBytesBE 8 (m.length * 8) ∧
      z < 64 ∧ (m.length + 1 + z) % 64 = 56 ∧
      (toBytesBE 8 (m.length * 8)).length = 8 ∧
      (padMessage m).length % 64 = 0 ∧ 0 < (padMessage m).length := by
  have hlen : (padMessage m).length =
      m.length + 1 + (((56 : Int) - ((m.length + 1) % 64 : Nat)) % 64).toNat + 8 := by
    simp [padMessage, toBytesBE_length]
    omega
  have harith := padLen_arith m.length
  refine ⟨(((56 : Int) - ((m.length + 1) % 64 : Nat)) % 64).toNat,
    by simp [padMessage], harith.1, harith.2,
    toBytesBE_length 8 _, by rw [hlen]; omega, by rw [hlen]; omega⟩

/-- Witness for C5 at the empty input. -/
theorem padMessage_structure_witness :
    ([] : List Nat).length < 64 ∧
      (∃ z, padMessage [] = [] ++ [0x80] ++ List.replicate z 0 ++ toBytesBE 8 (0 * 8) ∧
        z < 64 ∧ (0 + 1 + z) % 64 = 56 ∧
        (toBytesBE 8 (0 * 8)).length = 8 ∧
        (padMessage []).length % 64 = 0 ∧ 0 < (padMessage []).length) :=
  ⟨by decide, by simpa using padMessage_structure [] (by decide)⟩

theorem processBuffer_snd_drop (n : Nat) :
    ∀ (st buf : List Nat), buf.length ≤ n →
      (processBuffer st buf).2 = buf.drop (buf.length - buf.length % 64) := by
  induction n with
  | zero =>
    intro st buf h
    rw [processBuffer_small st buf (by omega)]
    have hz : buf.length - buf.length % 64 = 0 := by omega
    rw [hz, List.drop_zero]
  | succ n ih =>
    intro st buf h
    by_cases h64 : 64 ≤ buf.length
    · rw [processBuffer_block st buf h64, ih _ _ (by simp; omega), List.drop_drop]
      congr 1
      simp
      omega
    · rw [processBuffer_small st buf h64]
      have hz : buf.length - buf.length % 64 = 0 := by omega
      rw [hz, List.drop_zero]

theorem update_buffer_drop (m : List Nat) :
    (update initEngine m).buffer = m.drop (m.length - m.length % 64) := by
  simp only [update, initEngine, List.nil_append]
  exact processBuffer_snd_drop m.length _ m le_rfl

/-- C6: the length field that `digest` embeds is the bit-length of the
pending buffer handed to `_pad_message` (the digest never reads the
cumulative counter); the buffer after updating a fresh engine with `m` is
exactly the trailing `m.length % 64` bytes of `m` while the counter holds
the full length; hence two messages with the same trailing bytes whose
lengths differ by a multiple of 64 produce identical padded final
blocks. -/
theorem padding_binds_buffer_not_counter :
    (∀ (e : Engine) (c : Nat), (digest { e with counter := c }).1 = (digest e).1) ∧
    (∀ buf : List Nat, ∃ pre, padMessage buf = pre ++ toBytesBE 8 (buf.length * 8)) ∧
    (∀ m : List Nat,
      (update initEngine m).buffer = m.drop (m.length - m.length % 64) ∧
      (update initEngine m).buffer.length = m.length % 64 ∧
      (update initEngine m).counter = m.length) ∧
    (∀ p₁ p₂ t : List Nat, p₁.length % 64 = 0 → p₂.length % 64 = 0 →
      padMessage ((update initEngine (p₁ ++ t)).buffer) =
        padMessage ((update initEngine (p₂ ++ t)).buffer)) := by
  have hbuf : ∀ p t : List Nat, p.length % 64 = 0 →
      (update initEngine (p ++ t)).buffer = t.drop (t.length - t.length % 64) := by
    intro p t hp
    rw [update_buffer_drop]
    have h1 : (p ++ t).length = p.length + t.length := by simp
    have h2 : (p ++ t).length - (p ++ t).length % 64 =
        p.length + (t.length - t.length % 64) := by
      have := Nat.mod_le t.length 64
      omega
    rw [h2, List.drop_append]
  refine ⟨fun e c => rfl,
    fun buf => ⟨(buf ++ [0x80]) ++
      List.replicate ((((56 : Int) - ((buf.length + 1) % 64 : Nat)) % 64).toNat) 0,
      by simp [padMessage]⟩,
    fun m => ⟨update_buffer_drop m, ?_, by simp [update, initEngine]⟩,
    fun p₁ p₂ t h₁ h₂ => by rw [hbuf p₁ t h₁, hbuf p₂ t h₂]⟩
  rw [update_buffer_drop m, List.length_drop]
  have := Nat.mod_le m.length 64
  omega

/-- Witness for C6 with two messages differing by one 64-byte block. -/
theorem padding_binds_buffer_not_counter_witness :
    (List.replicate 64 (0 : Nat)).length % 64 = 0 ∧ ([] : List Nat).length % 64 = 0 ∧
      padMessage ((update initEngine (List.replicate 64 (0 : Nat) ++ [1, 2])).buffer) =
        padMessage ((update initEngine ([] ++ [1, 2])).buffer) :=
  ⟨by simp, by simp,
    padding_binds_buffer_not_counter.2.2.2 (List.replicate 64 0) [] [1, 2] (by simp) (by simp)⟩

theorem inv_init : Inv initEngine := by
  unfold Inv
  refine ⟨by decide, by decide, by decide⟩

/-- C7: construction, `update`, `digest` and `reset` all preserve the
engine invariant — exactly 8 state words, each at most `0xFFFFFFFF`, and a
pending buffer shorter than 64 bytes whenever `update` returns. -/
theorem engine_invariant :
    Inv initEngine ∧ (∀ (e : Engine) (m : List Nat), Inv e → Inv (update e m)) ∧
      (∀ e : Engine, Inv e → Inv (digest e).2) ∧ ∀ e : Engine, Inv (resetEngine e) := by
  refine ⟨inv_init, ?_, fun e he => by rwa [digest_snd], fun e => inv_init⟩
  rintro e m ⟨hlen, hle, hbuf⟩
  have h := processBuffer_inv (e.buffer ++ m).length e.state (e.buffer ++ m) le_rfl hlen hle
  exact ⟨h.1, h.2.1, h.2.2⟩

/-- Witness for C7: the invariant survives an update on the fresh engine. -/
theorem engine_invariant_witness :
    Inv initEngine ∧ Inv (update initEngine [1, 2, 3]) :=
  ⟨inv_init, engine_invariant.2.1 initEngine [1, 2, 3] inv_init⟩

/-- C8: `update` succeeds on any byte input and on any UTF-8-encodable
text input; a text input that the fixed UTF-8 encoding cannot convert
fails with the encoding error, propagated with the engine unchanged. -/
theorem update_error_contract :
    (∀ (e : Engine) (bs : List Nat), updateData e (Data.bytes bs) = Except.ok (update e bs)) ∧
    (∀ (e : Engine) (cs bs : List Nat), encodeUTF8 cs = some bs →
      updateData e (Data.text cs) = Except.ok (update e bs)) ∧
    (∀ (e : Engine) (cs : List Nat), encodeUTF8 cs = none →
      updateData e (Data.text cs) = Except.error HashError.encodingError ∧
        updateDataEngine e (Data.text cs) = e) := by
  refine ⟨fun e bs => rfl, fun e cs bs h => by simp [updateData, h],
    fun e cs h => by simp [updateData, updateDataEngine, h]⟩

/-- Witness for C8: the letter `h` encodes, a lone surrogate raises. -/
theorem update_error_contract_witness :
    (encodeUTF8 [104] = some [104] ∧
      updateData initEngine (Data.text [104]) = Except.ok (update initEngine [104])) ∧
    (encodeUTF8 [0xD800] = none ∧
      (updateData initEngine (Data.text [0xD800]) = Except.error HashError.encodingError ∧
        updateDataEngine initEngine (Data.text [0xD800]) = initEngine)) :=
  ⟨⟨by decide, update_error_contract.2.1 initEngine [104] [104] (by decide)⟩,
    ⟨by decide, update_error_contract.2.2 initEngine [0xD800] (by decide)⟩⟩

theorem processBufferWith_block (cf : List Nat → List Nat → List Nat)
    (st buf : List Nat) (h : 64 ≤ buf.length) :
    processBufferWith cf st buf = processBufferWith cf (cf st (buf.take 64)) (buf.drop 64) := by
  rw [processBufferWith]
  simp [h]

theorem processBufferWith_small (cf : List Nat → List Nat → List Nat)
    (st buf : List Nat) (h : ¬ 64 ≤ buf.length) :
    processBufferWith cf st buf = (st, buf) := by
  rw [processBufferWith]
  simp [h]

theorem processBufferWith_eq (n : Nat) :
    ∀ (st buf : List Nat), buf.length ≤ n →
      processBufferWith compressBlock st buf = processBuffer st buf := by
  induction n with
  | zero =>
    intro st buf h
    rw [processBufferWith_small _ st buf (by omega), processBuffer_small st buf (by omega)]
  | succ n ih =>
    intro st buf h
    by_cases h64 : 64 ≤ buf.length
    · rw [processBufferWith_block _ st buf h64, processBuffer_block st buf h64]
      exact ih _ _ (by simp; omega)
    · rw [processBufferWith_small _ st buf h64, processBuffer_small st buf h64]

theorem compressChunksWith_block (cf : List Nat → List Nat → List Nat)
    (st bs : List Nat) (h : ¬ bs.length = 0) :
    compressChunksWith cf st bs = compressChunksWith cf (cf st (bs.take 64)) (bs.drop 64) := by
  rw [compressChunksWith]
  simp [h]

theorem compressChunksWith_nil (cf : List Nat → List Nat → List Nat) (st : List Nat) :
    compressChunksWith cf st [] = st := by
  rw [compressChunksWith]
  simp

theorem compressChunksWith_eq (n : Nat) :
    ∀ (st bs : List Nat), bs.length ≤ n →
      compressChunksWith compressBlock st bs = compressChunks st bs := by
  induction n with
  | zero =>
    intro st bs h
    have hb : bs = [] := List.length_eq_zero.mp (by omega)
    rw [hb, compressChunksWith_nil, compressChunks_nil]
  | succ n ih =>
    intro st bs h
    by_cases h0 : bs.length = 0
    · rw [List.length_eq_zero.mp h0, compressChunksWith_nil, compressChunks_nil]
    · rw [compressChunksWith_block _ st bs h0, compressChunks_block st bs h0]
      exact ih _ _ (by simp; omega)

theorem updateWith_compressBlock (e : Engine) (m : List Nat) :
    updateWith compressBlock e m = update e m := by
  simp only [updateWith, update, processBufferWith_eq (e.buffer ++ m).length _ _ le_rfl]

theorem digestWith_compressBlock (e : Engine) :
    digestWith compressBlock e = digest e := by
  simp only [digestWith, digest, compressChunksWith_eq (padMessage e.buffer).length _ _ le_rfl]

/-- C9: the engine compression step and its whole update/digest pipeline
do not consult the documented custom mixing function: with the instance
mixing slot replaced by an arbitrary function — in particular by nothing
at all — every digest is unchanged, and the parameterized compression step
coincides with the one as written. -/
theorem mixing_function_unused (mixFn : Nat → Nat → Nat → Nat) (m : List Nat) :
    (digestWith (compressBlockWith mixFn)
        (updateWith (compressBlockWith mixFn) initEngine m)).1 =
      (digest (update initEngine m)).1 ∧
    compressBlockWith mixFn = compressBlock := by
  have hcb : compressBlockWith mixFn = compressBlock := funext fun st => funext fun blk => rfl
  rw [hcb, updateWith_compressBlock, digestWith_compressBlock]
  exact ⟨rfl, rfl⟩

theorem and_mask (x : Nat) : x &&& 0xFFFFFFFF = x % 2 ^ 32 := by
  rw [show (0xFFFFFFFF : Nat) = 2 ^ 32 - 1 from rfl, Nat.and_pow_two_sub_one_eq_mod]

theorem and_mask_lt (x : Nat) : x &&& 0xFFFFFFFF < 2 ^ 32 := by
  rw [and_mask]
  omega

theorem getD_lt (l : List Nat) (hl : ∀ x ∈ l, x < 2 ^ 32) (i : Nat) :
    l.getD i 0 < 2 ^ 32 := by
  induction l generalizing i with
  | nil => simp
  | cons a l ih =>
    cases i with
    | zero => exact hl a (by simp)
    | succ n => exact ih (fun x hx => hl x (by simp [hx])) n

theorem rotateRight_eq_rotrSpec (x r : Nat) (h : x < 2 ^ 32) :
    rotateRight x r = rotrSpec x r := by
  simp only [rotateRight, rotrSpec, and_mask]
  rw [Nat.mod_eq_of_lt h]

theorem choose_eq (e g : Nat) (hg : g < 2 ^ 32) :
    g ^^^ (g &&& e) = (0xFFFFFFFF ^^^ e) &&& g := by
  apply Nat.eq_of_testBit_eq
  intro j
  rw [show (0xFFFFFFFF : Nat) = 2 ^ 32 - 1 from rfl]
  simp only [Nat.testBit_xor, Nat.testBit_and, Nat.testBit_two_pow_sub_one]
  by_cases hj : j < 32
  · simp only [hj, decide_True]
    cases g.testBit j <;> cases e.testBit j <;> rfl
  · have hgf : g.testBit j = false :=
      Nat.testBit_lt_two_pow (lt_of_lt_of_le hg (Nat.pow_le_pow_right (by norm_num) (by omega)))
    simp [hj, hgf]

theorem foldl_bytes_lt (bs : List Nat) :
    ∀ acc : Nat, (∀ b ∈ bs, b < 256) →
      bs.foldl (fun acc b => acc * 256 + b) acc < (acc + 1) * 256 ^ bs.length := by
  induction bs with
  | nil => intro acc h; simp
  | cons b bs ih =>
    intro acc h
    rw [List.foldl_cons]
    have h1 := ih (acc * 256 + b) (fun x hx => h x (List.mem_cons_of_mem _ hx))
    have hb : b < 256 := h b (List.mem_cons_self _ _)
    have h2 : (acc * 256 + b + 1) * 256 ^ bs.length ≤ (acc + 1) * 256 ^ (b :: bs).length := by
      rw [List.length_cons, pow_succ, show (acc + 1) * (256 ^ bs.length * 256) =
        ((acc + 1) * 256) * 256 ^ bs.length by ring]
      exact Nat.mul_le_mul_right _ (by omega)
    exact lt_of_lt_of_le h1 h2

theorem fromBytesBE_lt (bs : List Nat) (h : ∀ b ∈ bs, b < 256) (hlen : bs.length ≤ 4) :
    fromBytesBE bs < 2 ^ 32 := by
  have h1 := foldl_bytes_lt bs 0 h
  simp only [Nat.zero_add, Nat.one_mul] at h1
  calc fromBytesBE bs < 256 ^ bs.length := h1
    _ ≤ 256 ^ 4 := Nat.pow_le_pow_right (by norm_num) hlen
    _ = 2 ^ 32 := by norm_num

theorem blockWords_lt (block : List Nat) (hb : ∀ b ∈ block, b < 256) :
    ∀ x ∈ blockWords block, x < 2 ^ 32 := by
  intro x hx
  simp only [blockWords, List.mem_map, List.mem_range] at hx
  obtain ⟨i, hi, rfl⟩ := hx
  refine fromBytesBE_lt _ (fun b hb' => hb b ?_) ?_
  · exact List.mem_of_mem_drop (List.mem_of_mem_take hb')
  · simp [List.length_take]

theorem scheduleWord_lt (ws : List Nat) (hws : ∀ x ∈ ws, x < 2 ^ 32) (i : Nat) :
    scheduleWord ws i < 2 ^ 32 := by
  induction i using Nat.strong_induction_on with
  | _ i ih =>
    rw [scheduleWord]
    by_cases h : i < 16
    · simp only [h, if_true]
      exact getD_lt ws hws i
    · simp only [h, if_false]
      exact and_mask_lt _

theorem scheduleWord_eq (ws : List Nat) (hws : ∀ x ∈ ws, x < 2 ^ 32) (i : Nat) :
    scheduleWordSpec ws i = scheduleWord ws i := by
  induction i using Nat.strong_induction_on with
  | _ i ih =>
    rw [scheduleWord, scheduleWordSpec]
    by_cases h : i < 16
    · simp [h]
    · have h15 := scheduleWord_lt ws hws (i - 15)
      have h2 := scheduleWord_lt ws hws (i - 2)
      simp only [h, if_false]
      rw [ih (i - 15) (by omega), ih (i - 2) (by omega), ih (i - 16) (by omega),
        ih (i - 7) (by omega), rotateRight_eq_rotrSpec _ 7 h15,
        rotateRight_eq_rotrSpec _ 18 h15, rotateRight_eq_rotrSpec _ 17 h2,
        rotateRight_eq_rotrSpec _ 19 h2, and_mask]

theorem compressRound_regsLt (ws : List Nat) (r : Regs) (i : Nat) (hr : RegsLt r) :
    RegsLt (compressRound ws r i) := by
  obtain ⟨ha, hb, hc, hd, he, hf, hg, hh⟩ := hr
  exact ⟨and_mask_lt _, ha, hb, hc, and_mask_lt _, he, hf, hg⟩

theorem compressRound_eq (ws : List Nat) (r : Regs) (i : Nat) (hr : RegsLt r)
    (hws : ∀ x ∈ ws, x < 2 ^ 32) :
    compressRoundSpec ws r i = compressRound ws r i := by
  obtain ⟨ha, hb, hc, hd, he, hf, hg, hh⟩ := hr
  simp only [compressRound, compressRoundSpec, chSpec, majSpec,
    scheduleWord_eq ws hws, rotateRight_eq_rotrSpec r.e 6 he,
    rotateRight_eq_rotrSpec r.e 11 he, rotateRight_eq_rotrSpec r.e 25 he,
    rotateRight_eq_rotrSpec r.a 2 ha, rotateRight_eq_rotrSpec r.a 13 ha,
    rotateRight_eq_rotrSpec r.a 22 ha, ← choose_eq r.e r.g hg, and_mask]

theorem compressLoop_eq (ws : List Nat) (r : Regs) (hr : RegsLt r)
    (hws : ∀ x ∈ ws, x < 2 ^ 32) (n : Nat) :
    RegsLt (compressLoop ws r n) ∧ compressLoopSpec ws r n = compressLoop ws r n := by
  induction n with
  | zero => exact ⟨hr, rfl⟩
  | succ n ih =>
    refine ⟨compressRound_regsLt ws _ n ih.1, ?_⟩
    show compressRoundSpec ws (compressLoopSpec ws r n) n =
      compressRound ws (compressLoop ws r n) n
    rw [ih.2, compressRound_eq ws _ n ih.1 hws]

/-- C4: on any 8-word state of 32-bit words and any block of bytes, the
source compression step — a pure function of (state, block) that never
sees the pending buffer — computes exactly the algorithm of §4.1: 16
big-endian words, 64-word schedule by the 7/18/3 and 17/19/10 recurrence
mod `2^32`, 64 rounds with constant `K[i mod 16]` and the S1/ch/S0/maj
register chain, then the Davies-Meyer feed-forward mod `2^32`. -/
theorem compressBlock_eq_spec (st block : List Nat)
    (hst : ∀ x ∈ st, x < 2 ^ 32) (hblock : ∀ b ∈ block, b < 256) :
    compressBlock st block = compressBlockSpec st block := by
  have hws := blockWords_lt block hblock
  have hr0 : RegsLt
      { a := st.getD 0 0, b := st.getD 1 0, c := st.getD 2 0, d := st.getD 3 0
        e := st.getD 4 0, f := st.getD 5 0, g := st.getD 6 0, h := st.getD 7 0 } :=
    ⟨getD_lt st hst 0, getD_lt st hst 1, getD_lt st hst 2, getD_lt st hst 3,
      getD_lt st hst 4, getD_lt st hst 5, getD_lt st hst 6, getD_lt st hst 7⟩
  simp only [compressBlock, compressBlockSpec, and_mask,
    (compressLoop_eq (blockWords block) _ hr0 hws 64).2]

/-- Witness for C4 on the initial state and the all-zero block. -/
theorem compressBlock_eq_spec_witness :
    (∀ x ∈ INITIAL_HASH, x < 2 ^ 32) ∧ (∀ b ∈ List.replicate 64 (0 : Nat), b < 256) ∧
      compressBlock INITIAL_HASH (List.replicate 64 0) =
        compressBlockSpec INITIAL_HASH (List.replicate 64 0) :=
  ⟨by decide, by decide,
    compressBlock_eq_spec INITIAL_HASH (List.replicate 64 0) (by decide) (by decide)⟩

end SimpleHash256
